import Mathlib

/-!
Verification development for `src/screen.py` of vaneli5/value-other-side.

The file shallowly embeds the screening pipeline of `screen.py`:
the data model (one pandas row of the merged `daily_basic`/`stock_basic`
frame), the predicate filter chain, the batched ROE enrichment join, the
threshold filters and the final sort of `filter_stocks`, plus the
`nlargest` slice primitive used by `show_top3`.

Modelling conventions:
- a nullable float column entry is `Option ℚ`; pandas comparisons of `NaN`
  with a number yield `False`, which the `opt*` helpers reproduce;
- dates are the `YYYYMMDD` strings the code actually compares
  (lexicographic order on these strings is chronological order);
- the run's current date enters `filter_stocks` only through the string
  `one_year_ago = (now - 365 days).strftime('%Y%m%d')`; it is carried as
  the field `one_year_ago` of the criteria record;
- a pandas frame is its list of rows plus one bit recording whether the
  `roe` column exists (the only column the code adds or removes);
- the external `pro.fina_indicator` call is a function parameter returning
  `Except String (List RoeRec)`; raising is the `.error` case, and the
  `None`-or-empty reply of the API is the empty list;
- `sort_values('pe_ttm')` is modelled as a stable sort on the `pe_ttm`
  key with nulls last (pandas `na_position='last'`). The code requests
  pandas' default `quicksort` kind, which is NOT stable; the theorems
  below therefore draw only order-insensitive conclusions through the
  sort (membership, absence of duplicates, permutation), or evaluate it
  on results of at most one row, where every sort agrees.
-/

namespace ValueScreen



/-- Substring containment: models `Series.str.contains` applied with a
literal (metacharacter-free) pattern, as in `screen.py`. -/
def containsSub (s sub : String) : Bool :=
  decide (sub.data <:+: s.data)

/-- Lexicographic strict order on character lists: Python compares the
`YYYYMMDD` date strings of `screen.py` by code point, character by
character. -/
def lexLt : List Char → List Char → Bool
  | [], [] => false
  | [], _ :: _ => true
  | _ :: _, [] => false
  | a :: as, b :: bs => a < b || (a == b && lexLt as bs)

/-- Python string `<` on the two date strings. -/
def strLt (a b : String) : Bool :=
  lexLt a.data b.data

/-- Python string `<=` (equivalently, not `>`). -/
def strLe (a b : String) : Bool :=
  !strLt b a

/-- One row of the merged market-data frame fetched by `fetch_data`:
`ts_code, close, pe_ttm, pb, dv_ratio, turnover_rate` from `daily_basic`
merged with `name, industry, list_date` from `stock_basic`, plus the
`roe` column that `filter_stocks` may add (meaningful only when the
enclosing frame records that the column exists). -/
structure Row where
  ts_code : String
  name : String
  industry : Option String
  list_date : Option String
  close : Option ℚ
  pe_ttm : Option ℚ
  pb : Option ℚ
  turnover_rate : Option ℚ
  dv_ratio : Option ℚ
  roe : Option ℚ
deriving DecidableEq, Repr

/-- A pandas DataFrame as the pipeline observes it: its rows in order and
whether the `roe` column is present (`result['roe']` raises `KeyError`
when it is not). -/
structure Frame where
  rows : List Row
  hasRoe : Bool
deriving DecidableEq, Repr

/-- The keyword arguments of `filter_stocks`, plus the `one_year_ago`
cutoff string that the code derives from the current date. -/
structure Criteria where
  pe_max : ℚ
  pb_max : ℚ
  turnover_min : ℚ
  roe_min : ℚ
  dividend_min : ℚ
  no_bank : Bool
  no_broker : Bool
  no_insurance : Bool
  no_real_estate : Bool
  no_new : Bool
  one_year_ago : String
deriving DecidableEq, Repr

/-- `industry.str.contains(sub, na=False)`: a missing industry never
matches. -/
def indHas (ind : Option String) (sub : String) : Bool :=
  match ind with
  | none => false
  | some s => containsSub s sub

/-- `c < x` on a nullable entry: pandas `NaN` comparisons are `False`. -/
def optGt (x : Option ℚ) (c : ℚ) : Bool :=
  match x with
  | none => false
  | some v => decide (c < v)

/-- `x < c` on a nullable entry: pandas `NaN` comparisons are `False`. -/
def optLt (x : Option ℚ) (c : ℚ) : Bool :=
  match x with
  | none => false
  | some v => decide (v < c)

/-- `df[~df['industry'].str.contains('银行', na=False)]` when `no_bank`. -/
def stepBank (C : Criteria) (l : List Row) : List Row :=
  if C.no_bank then l.filter (fun r => !indHas r.industry "银行") else l

/-- `df[~df['industry'].str.contains('证券|券商', na=False)]` when
`no_broker`; the pattern is a regex alternation of the two literals. -/
def stepBroker (C : Criteria) (l : List Row) : List Row :=
  if C.no_broker then
    l.filter (fun r => !(indHas r.industry "证券" || indHas r.industry "券商"))
  else l

/-- `df[~df['industry'].str.contains('保险', na=False)]` when
`no_insurance`. -/
def stepInsurance (C : Criteria) (l : List Row) : List Row :=
  if C.no_insurance then l.filter (fun r => !indHas r.industry "保险") else l

/-- `df[~df['industry'].str.contains('房地产|地产', na=False)]` when
`no_real_estate`. -/
def stepRealEstate (C : Criteria) (l : List Row) : List Row :=
  if C.no_real_estate then
    l.filter (fun r => !(indHas r.industry "房地产" || indHas r.industry "地产"))
  else l

/-- The elementwise test of `df['list_date'] < one_year_ago`. A missing
`list_date` is a null in an object column; pandas' object-dtype scalar
comparison returns `False` on nulls for `<`, so the row is dropped. -/
def listDateKeep (cutoff : String) (r : Row) : Bool :=
  match r.list_date with
  | none => false
  | some d => strLt d cutoff

/-- `df[df['list_date'] < one_year_ago]` when `no_new`. -/
def stepNew (C : Criteria) (l : List Row) : List Row :=
  if C.no_new then l.filter (listDateKeep C.one_year_ago) else l

/-- The combined numeric condition of lines 130-134:
`(pe_ttm > 0) & (pe_ttm < pe_max) & (pb > 0) & (pb < pb_max) &
(turnover_rate > turnover_min)`. -/
def numericKeep (C : Criteria) (r : Row) : Bool :=
  optGt r.pe_ttm 0 && optLt r.pe_ttm C.pe_max &&
  optGt r.pb 0 && optLt r.pb C.pb_max &&
  optGt r.turnover_rate C.turnover_min

/-- The whole predicate chain of `filter_stocks` up to and including the
numeric screen (the `.copy()` is irrelevant to values). -/
def baseRows (C : Criteria) (l : List Row) : List Row :=
  (stepNew C (stepRealEstate C (stepInsurance C (stepBroker C (stepBank C l))))).filter
    (numericKeep C)

/-- One record of the `fina_indicator` reply:
`ts_code, roe, end_date` (period end-date as a `YYYYMMDD` string). -/
structure RoeRec where
  ts_code : String
  roe : Option ℚ
  end_date : String
deriving DecidableEq, Repr

/-- Fuel-indexed body of `chunks100`; the fuel is always at least the
list length, so the first arm is never reached from `chunks100`. -/
def chunksAux : Nat → List α → List (List α)
  | 0, _ => []
  | _, [] => []
  | f + 1, a :: l2 => ((a :: l2).take 100) :: chunksAux f ((a :: l2).drop 100)

/-- The slicing `for i in range(0, len(codes), 100): batch = codes[i:i+100]`. -/
def chunks100 (l : List α) : List (List α) :=
  chunksAux l.length l

/-- Descending order on the period end-date, the key of
`sort_values('end_date', ascending=False)`: `a` may come before `b` when
`a`'s end-date is not smaller. -/
def edGE (a b : RoeRec) : Prop :=
  strLt a.end_date b.end_date = false

instance : DecidableRel edGE :=
  fun a b => inferInstanceAs (Decidable (strLt a.end_date b.end_date = false))

/-- Fuel-indexed body of `dedupByCode`; the fuel is always at least the
list length. -/
def dedupAux : Nat → List RoeRec → List RoeRec
  | 0, _ => []
  | _, [] => []
  | f + 1, q :: qs => q :: dedupAux f (qs.filter (fun s => !(s.ts_code == q.ts_code)))

/-- `drop_duplicates('ts_code')` with the default `keep='first'`: keep the
first record of each identifier, in order. -/
def dedupByCode (l : List RoeRec) : List RoeRec :=
  dedupAux l.length l

/-- `roe_df.sort_values('end_date', ascending=False).drop_duplicates('ts_code')`:
order by period end-date, newest first, then keep one record per
identifier. -/
def dedupLatest (recs : List RoeRec) : List RoeRec :=
  dedupByCode (recs.insertionSort edGE)

/-- The batch loop of lines 144-151 (and 190-199): fetch each batch in
order; a raised exception aborts the remaining batches and propagates;
a `None`-or-empty reply is skipped; a non-empty reply is deduplicated and
appended to `all_roe`. -/
def runBatches (fetch : List String → Except String (List RoeRec)) :
    List (List String) → Except String (List (List RoeRec))
  | [] => .ok []
  | b :: bs =>
    match fetch b with
    | .error e => .error e
    | .ok recs =>
      match runBatches fetch bs with
      | .error e => .error e
      | .ok rest => .ok (if recs.isEmpty then rest else dedupLatest recs :: rest)

/-- `result.merge(roe_final, on='ts_code', how='left')`: every left row in
order, expanded by its matching right records in order (one row with a
null `roe` when there is no match). When the left frame already has a
`roe` column the overlap is renamed `roe_x`/`roe_y`, so the merged frame
has no `roe` column; only the column bit and the modelled columns are
tracked, so the rows' `roe` field is cleared in that case. -/
def expandRow (recs : List RoeRec) (r : Row) : List Row :=
  let ms := recs.filter (fun q => q.ts_code == r.ts_code)
  if ms.isEmpty then [{ r with roe := none }]
  else ms.map (fun q => { r with roe := q.roe })

/-- The whole left merge, built from `expandRow` over the left rows in
order. -/
def mergeLeft (f : Frame) (recs : List RoeRec) : Frame :=
  if f.hasRoe then
    { rows := (f.rows.flatMap (expandRow recs)).map (fun r => { r with roe := none }),
      hasRoe := false }
  else
    { rows := f.rows.flatMap (expandRow recs), hasRoe := true }

/-- Lines 142-159 of `filter_stocks`: the `try` block fetches all batches
and merges the concatenated result; the `except` arm catches any raised
exception and sets the whole `roe` column to null. When every batch reply
was empty (`all_roe` empty) the frame is returned untouched. -/
def enrichStage (fetch : List String → Except String (List RoeRec)) (f : Frame) :
    Frame :=
  match runBatches fetch (chunks100 (f.rows.map (·.ts_code))) with
  | .error _ => { rows := f.rows.map (fun r => { r with roe := none }), hasRoe := true }
  | .ok parts =>
    if parts.isEmpty then f
    else mergeLeft f parts.flatten

/-- Lines 162-165: `result[result['roe'].fillna(0) > roe_min]` when
`roe_min > 0`. Accessing the `roe` column when the frame does not have
one raises a `KeyError`. -/
def roeStep (C : Criteria) (f : Frame) : Except String Frame :=
  if 0 < C.roe_min then
    if f.hasRoe then
      .ok { rows := f.rows.filter (fun r => decide (C.roe_min < r.roe.getD 0)),
            hasRoe := f.hasRoe }
    else .error "KeyError: roe"
  else .ok f

/-- Lines 168-171: `result[result['dv_ratio'].fillna(0) > dividend_min]`
when `dividend_min > 0`; the `dv_ratio` column always exists. -/
def divStep (C : Criteria) (f : Frame) : Frame :=
  if 0 < C.dividend_min then
    { rows := f.rows.filter (fun r => decide (C.dividend_min < r.dv_ratio.getD 0)),
      hasRoe := f.hasRoe }
  else f

/-- Row comparison used by the final sort of `sort_values('pe_ttm')`:
ascending `pe_ttm` with nulls last (`na_position='last'`). -/
def peLEb (a b : Row) : Bool :=
  match a.pe_ttm, b.pe_ttm with
  | _, none => true
  | none, some _ => false
  | some x, some y => decide (x ≤ y)

/-- Propositional form of `peLEb`. -/
def peLE (a b : Row) : Prop :=
  peLEb a b = true

instance : DecidableRel peLE :=
  fun a b => inferInstanceAs (Decidable (peLEb a b = true))

instance : IsTotal Row peLE :=
  ⟨fun a b => by
    unfold peLE peLEb
    rcases a.pe_ttm with _ | x <;> rcases b.pe_ttm with _ | y <;> simp [le_total]⟩

instance : IsTrans Row peLE :=
  ⟨fun a b c hab hbc => by
    unfold peLE peLEb at hab hbc ⊢
    rcases hA : a.pe_ttm with _ | x <;> rcases hB : b.pe_ttm with _ | y <;>
      rcases hC : c.pe_ttm with _ | z <;>
      simp only [hA, hB, hC, decide_eq_true_eq] at hab hbc ⊢ <;>
      first
      | rfl
      | exact le_trans hab hbc
      | exact (Bool.false_ne_true hab).elim
      | exact (Bool.false_ne_true hbc).elim⟩

/-- Line 174: `result = result.sort_values('pe_ttm')`, modelled as a
stable sort on the `pe_ttm` key. The code's pandas default `quicksort`
is unstable, so only order-insensitive consequences of this sort
(membership, duplicate-freedom, permutation) are used by the theorems
below; tie order is never relied on. -/
def sortStep (f : Frame) : Frame :=
  { rows := f.rows.insertionSort peLE, hasRoe := f.hasRoe }

/-- The empty `pd.DataFrame()` returned on a `None` or empty input. -/
def emptyFrame : Frame :=
  { rows := [], hasRoe := false }

/-- `filter_stocks(df, token, pe_max, pb_max, turnover_min, roe_min,
dividend_min, no_bank, no_broker, no_insurance, no_real_estate, no_new)`:
the whole function, lines 101-176. The tushare handle is abstracted as
the `fetch` function; a `.error` result is an uncaught exception escaping
the call. -/
def filterStocks (df : Option Frame)
    (fetch : List String → Except String (List RoeRec)) (C : Criteria) :
    Except String Frame :=
  match df with
  | none => .ok emptyFrame
  | some f =>
    if f.rows.isEmpty then .ok emptyFrame
    else
      let base : Frame := { rows := baseRows C f.rows, hasRoe := f.hasRoe }
      let enriched : Frame :=
        if 0 < C.roe_min ∨ 0 < C.dividend_min then enrichStage fetch base else base
      match roeStep C enriched with
      | .error e => .error e
      | .ok f2 => .ok (sortStep (divStep C f2))

/-- Descending order on the dividend yield, the ranking key of
`df.nlargest(3, 'dv_ratio')` (on non-null entries). -/
def dvGE (a b : Row) : Prop :=
  b.dv_ratio.getD 0 ≤ a.dv_ratio.getD 0

instance : DecidableRel dvGE :=
  fun a b => inferInstanceAs (Decidable (b.dv_ratio.getD 0 ≤ a.dv_ratio.getD 0))

instance : IsTotal Row dvGE :=
  ⟨fun a b => le_total (b.dv_ratio.getD 0) (a.dv_ratio.getD 0)⟩

instance : IsTrans Row dvGE :=
  ⟨fun _ _ _ h h2 => le_trans h2 h⟩

/-- `df.nlargest(n, 'dv_ratio')` (line 221): pandas `nlargest` first drops
the rows whose key is null, then returns the `n` largest, earlier rows
first on ties (`keep='first'`). -/
def nlargestDv (n : Nat) (l : List Row) : List Row :=
  ((l.filter (fun r => r.dv_ratio.isSome)).insertionSort dvGE).take n

/-- The high-dividend top-3 slice of `show_top3` (lines 220-224). -/
def topDiv (l : List Row) : List Row :=
  nlargestDv 3 l

/-- A row with the `roe` column removed: the snapshot part of a row. -/
def stripRoe (r : Row) : Row :=
  { r with roe := none }

/-- The resolved metric of one identifier after the left merge: the value
of the first (unique) matching record, null when there is none. -/
def lookupRoe (recs : List RoeRec) (c : String) : Option ℚ :=
  match recs.find? (fun q => q.ts_code == c) with
  | some q => q.roe
  | none => none

/-- The conjunction of every active predicate of the chain: a row is in
`baseRows C l` exactly when it is in `l` and satisfies `keepAll C`. -/
def keepAll (C : Criteria) (r : Row) : Bool :=
  (!C.no_bank || !indHas r.industry "银行") &&
  (!C.no_broker || !(indHas r.industry "证券" || indHas r.industry "券商")) &&
  (!C.no_insurance || !indHas r.industry "保险") &&
  (!C.no_real_estate || !(indHas r.industry "房地产" || indHas r.industry "地产")) &&
  (!C.no_new || listDateKeep C.one_year_ago r) &&
  numericKeep C r

/-- The frame reaching the threshold filters of `filter_stocks` on a
non-empty input: the base-filtered rows, enriched when a ROE or dividend
threshold is active. -/
def enrichedOf (D : Frame) (fetch : List String → Except String (List RoeRec))
    (C : Criteria) : Frame :=
  if 0 < C.roe_min ∨ 0 < C.dividend_min then
    enrichStage fetch { rows := baseRows C D.rows, hasRoe := D.hasRoe }
  else { rows := baseRows C D.rows, hasRoe := D.hasRoe }

/-- Helper building one snapshot row from its screening-relevant fields. -/
def mkRow (c : String) (ind ld : Option String) (pe pb tr dv : Option ℚ) : Row :=
  { ts_code := c, name := c, industry := ind, list_date := ld, close := some 10,
    pe_ttm := pe, pb := pb, turnover_rate := tr, dv_ratio := dv, roe := none }

/-- Concrete criteria: default-style thresholds with every exclusion
toggle on and no ROE or dividend threshold. -/
def critD : Criteria :=
  { pe_max := 15, pb_max := 2, turnover_min := 0, roe_min := 0, dividend_min := 0,
    no_bank := true, no_broker := true, no_insurance := true, no_real_estate := true,
    no_new := true, one_year_ago := "20250101" }

/-- Concrete criteria with an active ROE threshold. -/
def critRoe : Criteria :=
  { critD with roe_min := 5 }

/-- A fetch collaborator whose every reply is empty. -/
def noFetch : List String → Except String (List RoeRec) :=
  fun _ => .ok []

/-- A row listed long before any recent cutoff, passing every other
predicate of `critD`. -/
def wOld : Row :=
  mkRow "OLD1" (some "科技") (some "20100101") (some 10) (some 1) (some 1) (some 3)

/-- A row with a missing listing date, passing every other predicate of
`critD`. -/
def wNoDate : Row :=
  mkRow "ND1" (some "科技") none (some 10) (some 1) (some 1) (some 3)

/-- Rows with and without a dividend yield, for the top-3 slice. -/
def dNull1 : Row := mkRow "DN1" none none none none none none

def dVal1 : Row := mkRow "DV1" none none none none none (some 1)

def dNull2 : Row := mkRow "DN2" none none none none none none

def dVal2 : Row := mkRow "DV2" none none none none none (some 2)

/-- A fetch collaborator resolving the single identifier of `wOld`. -/
def fetchOld : List String → Except String (List RoeRec) :=
  fun _ => .ok [{ ts_code := "OLD1", roe := some 10, end_date := "20240630" }]

/-- The fetch used by the C5 witness: two period records for the single
identifier `X`. -/
def fetchTwo : List String → Except String (List RoeRec) :=
  fun b =>
    if b = ["X"] then
      .ok [{ ts_code := "X", roe := some 7, end_date := "20231231" },
           { ts_code := "X", roe := some 9, end_date := "20240630" }]
    else .ok []

/-- A fetch collaborator that always raises. -/
def failFetch : List String → Except String (List RoeRec) :=
  fun _ => .error "timeout"

/-- The 101 identifiers of the C1 counterexample: two batches. -/
def codes101 : List String :=
  (List.range 101).map (fun i => "S" ++ toString i)

/-- Rows for `codes101`, all passing the base predicates of `critRoe`. -/
def rows101 : List Row :=
  codes101.map (fun c => mkRow c (some "科技") (some "20100101") (some 10) (some 1)
    (some 1) none)

/-- A fetch that resolves the full first batch (100 identifiers) and
raises on the second. -/
def fetchSplit : List String → Except String (List RoeRec) :=
  fun b =>
    if b.length == 100 then
      .ok (b.map (fun c => { ts_code := c, roe := some 50, end_date := "20240630" }))
    else .error "timeout"

theorem lexLt_irrefl : ∀ l : List Char, lexLt l l = false := by
  intro l
  induction l with
  | nil => rfl
  | cons a as ih => simp [lexLt, ih, lt_irrefl]

theorem lexLt_asymm : ∀ a b : List Char, lexLt a b = true → lexLt b a = false := by
  intro a
  induction a with
  | nil =>
    intro b hb
    cases b with
    | nil => simp [lexLt] at hb
    | cons c cs => rfl
  | cons x xs ih =>
    intro b hb
    cases b with
    | nil => simp [lexLt] at hb
    | cons y ys =>
      simp only [lexLt, Bool.or_eq_true, Bool.and_eq_true, decide_eq_true_eq,
        beq_iff_eq] at hb ⊢
      rcases hb with h | ⟨hxy, hxs⟩
      · simp [Bool.or_eq_false_iff, asymm h, (ne_of_lt h).symm]
      · subst hxy
        simp [lt_irrefl, ih ys hxs]

theorem lexLt_negtrans :
    ∀ a b c : List Char, lexLt a c = true → lexLt a b = true ∨ lexLt b c = true := by
  intro a
  induction a with
  | nil =>
    intro b c hc
    cases c with
    | nil => simp [lexLt] at hc
    | cons z cs =>
      cases b with
      | nil => exact Or.inr rfl
      | cons y ys => exact Or.inl rfl
  | cons x xs ih =>
    intro b c hc
    cases c with
    | nil => simp [lexLt] at hc
    | cons z cs =>
      cases b with
      | nil => exact Or.inr rfl
      | cons y ys =>
        simp only [lexLt, Bool.or_eq_true, Bool.and_eq_true, decide_eq_true_eq,
          beq_iff_eq] at hc ⊢
        rcases hc with h | ⟨hxz, hxs⟩
        · rcases lt_trichotomy x y with h2 | h2 | h2
          · exact Or.inl (Or.inl h2)
          · subst h2
            exact Or.inr (Or.inl h)
          · exact Or.inr (Or.inl (lt_trans h2 h))
        · subst hxz
          rcases lt_trichotomy x y with h2 | h2 | h2
          · exact Or.inl (Or.inl h2)
          · subst h2
            rcases ih ys cs hxs with h3 | h3
            · exact Or.inl (Or.inr ⟨rfl, h3⟩)
            · exact Or.inr (Or.inr ⟨rfl, h3⟩)
          · exact Or.inr (Or.inl h2)

theorem strLt_asymm {a b : String} (h : strLt a b = true) : strLt b a = false :=
  lexLt_asymm _ _ h

theorem strLt_negtrans (b : String) {a c : String} (h : strLt a c = true) :
    strLt a b = true ∨ strLt b c = true :=
  lexLt_negtrans _ b.data _ h

instance : IsTotal RoeRec edGE :=
  ⟨fun a b => by
    unfold edGE
    cases h : strLt a.end_date b.end_date with
    | false => exact Or.inl rfl
    | true => exact Or.inr (strLt_asymm h)⟩

instance : IsTrans RoeRec edGE :=
  ⟨fun a b c hab hbc => by
    unfold edGE at hab hbc ⊢
    cases h : strLt a.end_date c.end_date with
    | false => rfl
    | true =>
      rcases strLt_negtrans b.end_date h with h2 | h2
      · rw [hab] at h2; exact absurd h2 (by simp)
      · rw [hbc] at h2; exact absurd h2 (by simp)⟩

theorem flatten_chunksAux :
    ∀ (fuel : Nat) (l : List α), l.length ≤ fuel → (chunksAux fuel l).flatten = l := by
  intro fuel
  induction fuel with
  | zero =>
    intro l hl
    rw [Nat.le_zero, List.length_eq_zero] at hl
    subst hl
    rfl
  | succ f ih =>
    intro l hl
    cases l with
    | nil => rfl
    | cons a l2 =>
      have hd : ((a :: l2).drop 100).length ≤ f := by
        simp only [List.length_drop, List.length_cons]
        simp only [List.length_cons] at hl
        omega
      simp only [chunksAux, List.flatten_cons, ih _ hd, List.take_append_drop]

theorem flatten_chunks100 (l : List α) : (chunks100 l).flatten = l :=
  flatten_chunksAux l.length l le_rfl

theorem mem_of_mem_chunks100 {l : List α} {b : List α} (hb : b ∈ chunks100 l)
    {x : α} (hx : x ∈ b) : x ∈ l := by
  rw [← flatten_chunks100 l]
  exact List.mem_flatten.mpr ⟨b, hb, hx⟩

theorem chunks100_nodup {l : List α} (h : l.Nodup) :
    (∀ b ∈ chunks100 l, b.Nodup) ∧ (chunks100 l).Pairwise List.Disjoint := by
  rw [← flatten_chunks100 l] at h
  exact List.nodup_flatten.mp h

/-- In a pairwise-disjoint family, two members sharing an element are the
same member. -/
theorem pairwise_disjoint_eq {L : List (List α)} (hL : L.Pairwise List.Disjoint)
    {b0 b1 : List α} (h0 : b0 ∈ L) (h1 : b1 ∈ L) {x : α}
    (hx0 : x ∈ b0) (hx1 : x ∈ b1) : b0 = b1 := by
  induction L with
  | nil => cases h0
  | cons hd tl ih =>
    rcases List.pairwise_cons.mp hL with ⟨hhd, htl⟩
    rcases List.mem_cons.mp h0 with rfl | h0t
    · rcases List.mem_cons.mp h1 with rfl | h1t
      · rfl
      · exact absurd hx1 (hhd b1 h1t hx0)
    · rcases List.mem_cons.mp h1 with rfl | h1t
      · exact absurd hx0 (hhd b0 h0t hx1)
      · exact ih htl h0t h1t

theorem mem_dedupAux : ∀ (fuel : Nat) (l : List RoeRec) (q : RoeRec),
    q ∈ dedupAux fuel l → q ∈ l := by
  intro fuel
  induction fuel with
  | zero =>
    intro l q hq
    rw [show dedupAux 0 l = [] from by cases l <;> rfl] at hq
    cases hq
  | succ f ih =>
    intro l q hq
    cases l with
    | nil => cases hq
    | cons p ps =>
      rcases List.mem_cons.mp hq with rfl | hq2
      · exact List.mem_cons_self _ _
      · exact List.mem_cons_of_mem _ (List.mem_filter.mp (ih _ _ hq2)).1

theorem nodup_codes_dedupAux :
    ∀ (fuel : Nat) (l : List RoeRec), ((dedupAux fuel l).map RoeRec.ts_code).Nodup := by
  intro fuel
  induction fuel with
  | zero => intro l; simp [dedupAux]
  | succ f ih =>
    intro l
    cases l with
    | nil => simp [dedupAux]
    | cons p ps =>
      simp only [dedupAux, List.map_cons, List.nodup_cons]
      refine ⟨?_, ih _⟩
      intro hmem
      rcases List.mem_map.mp hmem with ⟨q, hq, hcode⟩
      have hqf := List.mem_filter.mp (mem_dedupAux _ _ _ hq)
      rw [hcode] at hqf
      simp at hqf

theorem cover_dedupAux :
    ∀ (fuel : Nat) (l : List RoeRec), l.length ≤ fuel →
      ∀ q ∈ l, ∃ p ∈ dedupAux fuel l, p.ts_code = q.ts_code := by
  intro fuel
  induction fuel with
  | zero =>
    intro l hl q hq
    rw [Nat.le_zero, List.length_eq_zero] at hl
    subst hl
    cases hq
  | succ f ih =>
    intro l hl q hq
    cases l with
    | nil => cases hq
    | cons p ps =>
      by_cases hc : q.ts_code = p.ts_code
      · exact ⟨p, List.mem_cons_self _ _, hc.symm⟩
      · rcases List.mem_cons.mp hq with rfl | hq2
        · exact absurd rfl hc
        · have hlen : (ps.filter (fun s => !(s.ts_code == p.ts_code))).length ≤ f := by
            have := List.length_filter_le (fun s => !(s.ts_code == p.ts_code)) ps
            simp only [List.length_cons] at hl
            omega
          have hqf : q ∈ ps.filter (fun s => !(s.ts_code == p.ts_code)) :=
            List.mem_filter.mpr ⟨hq2, by simpa using hc⟩
          rcases ih _ hlen q hqf with ⟨p2, hp2, hcode⟩
          exact ⟨p2, List.mem_cons_of_mem _ hp2, hcode⟩

theorem latest_dedupAux :
    ∀ (fuel : Nat) (l : List RoeRec), l.Pairwise edGE →
      ∀ p ∈ dedupAux fuel l, ∀ q ∈ l, q.ts_code = p.ts_code →
        strLt p.end_date q.end_date = false := by
  intro fuel
  induction fuel with
  | zero =>
    intro l _ p hp
    rw [show dedupAux 0 l = [] from by cases l <;> rfl] at hp
    cases hp
  | succ f ih =>
    intro l hsort p hp q hq hcode
    cases l with
    | nil => cases hp
    | cons r rs =>
      rcases List.pairwise_cons.mp hsort with ⟨hr, hrs⟩
      rcases List.mem_cons.mp hp with rfl | hp2
      · rcases List.mem_cons.mp hq with rfl | hq2
        · exact lexLt_irrefl _
        · exact hr q hq2
      · have hpf := List.mem_filter.mp (mem_dedupAux _ _ _ hp2)
        have hpcode : p.ts_code ≠ r.ts_code := by simpa using hpf.2
        rcases List.mem_cons.mp hq with rfl | hq2
        · exact absurd hcode.symm hpcode
        · have hqf : q ∈ rs.filter (fun s => !(s.ts_code == r.ts_code)) := by
            refine List.mem_filter.mpr ⟨hq2, ?_⟩
            rw [hcode]
            simpa using hpcode
          exact ih _ (List.Pairwise.sublist (List.filter_sublist _) hrs) p hp2 q hqf hcode

theorem mem_dedupLatest {recs : List RoeRec} {q : RoeRec}
    (h : q ∈ dedupLatest recs) : q ∈ recs :=
  (List.mem_insertionSort edGE).mp (mem_dedupAux _ _ _ h)

theorem nodup_codes_dedupLatest (recs : List RoeRec) :
    ((dedupLatest recs).map RoeRec.ts_code).Nodup :=
  nodup_codes_dedupAux _ _

theorem cover_dedupLatest {recs : List RoeRec} {q : RoeRec} (hq : q ∈ recs) :
    ∃ p ∈ dedupLatest recs, p.ts_code = q.ts_code := by
  have hmem : q ∈ recs.insertionSort edGE := (List.mem_insertionSort edGE).mpr hq
  have hlen : (recs.insertionSort edGE).length ≤ (recs.insertionSort edGE).length := le_rfl
  exact cover_dedupAux _ _ hlen q hmem

theorem latest_dedupLatest {recs : List RoeRec} {p : RoeRec}
    (hp : p ∈ dedupLatest recs) {q : RoeRec} (hq : q ∈ recs)
    (hcode : q.ts_code = p.ts_code) : strLt p.end_date q.end_date = false := by
  have hsort : (recs.insertionSort edGE).Pairwise edGE :=
    List.sorted_insertionSort edGE recs
  exact latest_dedupAux _ _ hsort p hp q ((List.mem_insertionSort edGE).mpr hq) hcode

theorem runBatches_flatten_mem {fetch : List String → Except String (List RoeRec)}
    {bs : List (List String)} {parts : List (List RoeRec)}
    (h : runBatches fetch bs = .ok parts) {q : RoeRec} (hq : q ∈ parts.flatten) :
    ∃ b ∈ bs, ∃ recs, fetch b = .ok recs ∧ q ∈ recs := by
  induction bs generalizing parts with
  | nil =>
    simp only [runBatches, Except.ok.injEq] at h
    subst h
    simp at hq
  | cons b bs2 ih =>
    cases hf : fetch b with
    | error e =>
      simp only [runBatches, hf] at h
      exact Except.noConfusion h
    | ok recs =>
      cases hr : runBatches fetch bs2 with
      | error e =>
        simp only [runBatches, hf, hr] at h
        exact Except.noConfusion h
      | ok rest =>
        simp only [runBatches, hf, hr, Except.ok.injEq] at h
        by_cases he : recs.isEmpty
        · rw [if_pos he] at h
          subst h
          rcases ih hr hq with ⟨b2, hb2, recs2, hf2, hq2⟩
          exact ⟨b2, List.mem_cons_of_mem _ hb2, recs2, hf2, hq2⟩
        · rw [if_neg he] at h
          subst h
          rw [List.flatten_cons, List.mem_append] at hq
          rcases hq with hq | hq
          · exact ⟨b, List.mem_cons_self _ _, recs, hf, mem_dedupLatest hq⟩
          · rcases ih hr hq with ⟨b2, hb2, recs2, hf2, hq2⟩
            exact ⟨b2, List.mem_cons_of_mem _ hb2, recs2, hf2, hq2⟩

theorem runBatches_codes_nodup {fetch : List String → Except String (List RoeRec)}
    {bs : List (List String)} {parts : List (List RoeRec)}
    (h : runBatches fetch bs = .ok parts)
    (Hf : ∀ b recs, fetch b = .ok recs → ∀ q ∈ recs, q.ts_code ∈ b)
    (hdis : bs.Pairwise List.Disjoint) :
    ((parts.flatten).map RoeRec.ts_code).Nodup := by
  induction bs generalizing parts with
  | nil =>
    simp only [runBatches, Except.ok.injEq] at h
    subst h
    simp
  | cons b bs2 ih =>
    rcases List.pairwise_cons.mp hdis with ⟨hb, hdis2⟩
    cases hf : fetch b with
    | error e =>
      simp only [runBatches, hf] at h
      exact Except.noConfusion h
    | ok recs =>
      cases hr : runBatches fetch bs2 with
      | error e =>
        simp only [runBatches, hf, hr] at h
        exact Except.noConfusion h
      | ok rest =>
        simp only [runBatches, hf, hr, Except.ok.injEq] at h
        by_cases he : recs.isEmpty
        · rw [if_pos he] at h
          subst h
          exact ih hr hdis2
        · rw [if_neg he] at h
          subst h
          rw [List.flatten_cons, List.map_append, List.nodup_append]
          refine ⟨nodup_codes_dedupLatest recs, ih hr hdis2, ?_⟩
          intro c hc1 hc2
          rcases List.mem_map.mp hc1 with ⟨p, hp, hpc⟩
          rcases List.mem_map.mp hc2 with ⟨p2, hp2, hpc2⟩
          have hcb : c ∈ b := by
            rw [← hpc]
            exact Hf b recs hf p (mem_dedupLatest hp)
          rcases runBatches_flatten_mem hr hp2 with ⟨b2, hb2, recs2, hf2, hq2⟩
          have hcb2 : c ∈ b2 := by
            rw [← hpc2]
            exact Hf b2 recs2 hf2 p2 hq2
          exact hb b2 hb2 hcb hcb2

theorem expandRow_eq {recs : List RoeRec} (h : (recs.map RoeRec.ts_code).Nodup)
    (r : Row) : expandRow recs r = [{ r with roe := lookupRoe recs r.ts_code }] := by
  induction recs with
  | nil => rfl
  | cons q qs ih =>
    rcases List.nodup_cons.mp h with ⟨hq, hqs⟩
    cases hqr : (q.ts_code == r.ts_code) with
    | true =>
      have hqr2 : q.ts_code = r.ts_code := by simpa using hqr
      have hnil : qs.filter (fun p => p.ts_code == r.ts_code) = [] := by
        rw [List.filter_eq_nil_iff]
        intro p hp hpr
        have hpr2 : p.ts_code = r.ts_code := by simpa using hpr
        exact hq (by rw [hqr2, ← hpr2]; exact List.mem_map_of_mem _ hp)
      simp only [expandRow, lookupRoe, List.filter, List.find?, hqr, hnil]
      rfl
    | false =>
      have hstep := ih hqs
      simp only [expandRow, lookupRoe, List.filter, List.find?, hqr] at hstep ⊢
      exact hstep

theorem mergeLeft_eq {recs : List RoeRec} (h : (recs.map RoeRec.ts_code).Nodup)
    (f : Frame) :
    mergeLeft f recs =
      if f.hasRoe then
        { rows := f.rows.map (fun r => { r with roe := none }), hasRoe := false }
      else
        { rows := f.rows.map (fun r => { r with roe := lookupRoe recs r.ts_code }),
          hasRoe := true } := by
  have hexp : ∀ l : List Row,
      l.flatMap (expandRow recs) =
        l.map (fun r => { r with roe := lookupRoe recs r.ts_code }) := by
    intro l
    induction l with
    | nil => rfl
    | cons a l2 ih2 => rw [List.flatMap_cons, List.map_cons, expandRow_eq h, ih2]; rfl
  unfold mergeLeft
  cases hR : f.hasRoe with
  | false => simp [hexp]
  | true =>
    simp only [if_pos, hexp, List.map_map]
    rfl

theorem enrichStage_strip {fetch : List String → Except String (List RoeRec)} {f : Frame}
    (Hf : ∀ b recs, fetch b = .ok recs → ∀ q ∈ recs, q.ts_code ∈ b)
    (hnd : (f.rows.map Row.ts_code).Nodup) :
    (enrichStage fetch f).rows.map stripRoe = f.rows.map stripRoe := by
  unfold enrichStage
  cases hrun : runBatches fetch (chunks100 (f.rows.map (·.ts_code))) with
  | error e =>
    simp only [List.map_map]
    rfl
  | ok parts =>
    dsimp only
    by_cases hp : parts.isEmpty
    · rw [if_pos hp]
    · rw [if_neg hp]
      have hdis : (chunks100 (f.rows.map (·.ts_code))).Pairwise List.Disjoint :=
        (chunks100_nodup hnd).2
      have hfin : ((parts.flatten).map RoeRec.ts_code).Nodup :=
        runBatches_codes_nodup hrun Hf hdis
      rw [mergeLeft_eq hfin]
      cases hR : f.hasRoe with
      | false =>
        first
        | rw [hR, if_neg Bool.false_ne_true, List.map_map]
        | rw [if_neg Bool.false_ne_true, List.map_map]
        rfl
      | true =>
        first
        | rw [hR, if_pos rfl, List.map_map]
        | rw [if_pos rfl, List.map_map]
        rfl

theorem enrichStage_codes {fetch : List String → Except String (List RoeRec)} {f : Frame}
    (Hf : ∀ b recs, fetch b = .ok recs → ∀ q ∈ recs, q.ts_code ∈ b)
    (hnd : (f.rows.map Row.ts_code).Nodup) :
    (enrichStage fetch f).rows.map Row.ts_code = f.rows.map Row.ts_code := by
  have h := enrichStage_strip Hf hnd
  have h2 := congrArg (List.map Row.ts_code) h
  rw [List.map_map, List.map_map] at h2
  exact h2

theorem mem_toggle_filter {c : Bool} {p : Row → Bool} {l : List Row} {r : Row}
    (h : r ∈ (if c = true then l.filter p else l)) : r ∈ l ∧ (!c || p r) = true := by
  cases c with
  | false =>
    rw [if_neg Bool.false_ne_true] at h
    exact ⟨h, rfl⟩
  | true =>
    rw [if_pos rfl] at h
    rcases List.mem_filter.mp h with ⟨h1, h2⟩
    exact ⟨h1, by simp [h2]⟩

theorem toggle_filter_eq_self {c : Bool} {p : Row → Bool} {l : List Row}
    (h : ∀ r ∈ l, (!c || p r) = true) : (if c = true then l.filter p else l) = l := by
  cases c with
  | false => rw [if_neg Bool.false_ne_true]
  | true =>
    rw [if_pos rfl, List.filter_eq_self]
    intro a ha
    simpa using h a ha

theorem toggle_filter_sublist {c : Bool} {p : Row → Bool} {l : List Row} :
    List.Sublist (if c = true then l.filter p else l) l := by
  cases c with
  | false => rw [if_neg Bool.false_ne_true]
  | true => rw [if_pos rfl]; exact List.filter_sublist l

theorem baseRows_sublist (C : Criteria) (l : List Row) : List.Sublist (baseRows C l) l := by
  unfold baseRows stepNew stepRealEstate stepInsurance stepBroker stepBank
  exact (List.filter_sublist _).trans <| toggle_filter_sublist.trans <|
    toggle_filter_sublist.trans <| toggle_filter_sublist.trans <|
    toggle_filter_sublist.trans toggle_filter_sublist

theorem mem_baseRows_keepAll {C : Criteria} {l : List Row} {r : Row}
    (h : r ∈ baseRows C l) : keepAll C r = true := by
  unfold baseRows at h
  rcases List.mem_filter.mp h with ⟨h1, hnum⟩
  unfold stepNew at h1
  rcases mem_toggle_filter h1 with ⟨h2, hnew⟩
  unfold stepRealEstate at h2
  rcases mem_toggle_filter h2 with ⟨h3, hre⟩
  unfold stepInsurance at h3
  rcases mem_toggle_filter h3 with ⟨h4, hins⟩
  unfold stepBroker at h4
  rcases mem_toggle_filter h4 with ⟨h5, hbrk⟩
  unfold stepBank at h5
  rcases mem_toggle_filter h5 with ⟨h6, hbank⟩
  simp only [keepAll, Bool.and_eq_true]
  exact ⟨⟨⟨⟨⟨hbank, hbrk⟩, hins⟩, hre⟩, hnew⟩, hnum⟩

theorem mem_baseRows_self {C : Criteria} {l : List Row} {r : Row}
    (h : r ∈ baseRows C l) : r ∈ l :=
  (baseRows_sublist C l).subset h

theorem baseRows_eq_self {C : Criteria} {l : List Row}
    (h : ∀ r ∈ l, keepAll C r = true) : baseRows C l = l := by
  have hc : ∀ r ∈ l,
      ((((((!C.no_bank || !indHas r.industry "银行") = true ∧
        (!C.no_broker || !(indHas r.industry "证券" || indHas r.industry "券商")) = true) ∧
        (!C.no_insurance || !indHas r.industry "保险") = true) ∧
        (!C.no_real_estate || !(indHas r.industry "房地产" || indHas r.industry "地产")) = true) ∧
        (!C.no_new || listDateKeep C.one_year_ago r) = true) ∧
        numericKeep C r = true) := by
    intro r hr
    have := h r hr
    simpa only [keepAll, Bool.and_eq_true] using this
  unfold baseRows stepNew stepRealEstate stepInsurance stepBroker stepBank
  rw [toggle_filter_eq_self (fun r hr => (hc r hr).1.1.1.1.1)]
  rw [toggle_filter_eq_self (fun r hr => (hc r hr).1.1.1.1.2)]
  rw [toggle_filter_eq_self (fun r hr => (hc r hr).1.1.1.2)]
  rw [toggle_filter_eq_self (fun r hr => (hc r hr).1.1.2)]
  rw [toggle_filter_eq_self (fun r hr => (hc r hr).1.2)]
  rw [List.filter_eq_self]
  intro r hr
  exact (hc r hr).2

theorem numericKeep_iff (C : Criteria) (r : Row) :
    numericKeep C r = true ↔
      (∃ v, r.pe_ttm = some v ∧ 0 < v ∧ v < C.pe_max) ∧
      (∃ v, r.pb = some v ∧ 0 < v ∧ v < C.pb_max) ∧
      (∃ v, r.turnover_rate = some v ∧ C.turnover_min < v) := by
  cases hpe : r.pe_ttm <;> cases hpb : r.pb <;> cases ht : r.turnover_rate <;>
    simp [numericKeep, optGt, optLt, hpe, hpb, ht, and_assoc]

theorem roeStep_ok_sub {C : Criteria} {f f2 : Frame} (h : roeStep C f = .ok f2) :
    List.Sublist f2.rows f.rows ∧ f2.hasRoe = f.hasRoe := by
  unfold roeStep at h
  by_cases hc : 0 < C.roe_min
  · rw [if_pos hc] at h
    by_cases hr : f.hasRoe = true
    · rw [if_pos hr] at h
      injection h with h2
      subst h2
      exact ⟨List.filter_sublist _, rfl⟩
    · rw [if_neg hr] at h
      exact Except.noConfusion h
  · rw [if_neg hc] at h
    injection h with h2
    subst h2
    exact ⟨List.Sublist.refl _, rfl⟩

theorem divStep_sub (C : Criteria) (f : Frame) :
    List.Sublist (divStep C f).rows f.rows ∧ (divStep C f).hasRoe = f.hasRoe := by
  unfold divStep
  by_cases hc : 0 < C.dividend_min
  · rw [if_pos hc]
    exact ⟨List.filter_sublist _, rfl⟩
  · rw [if_neg hc]
    exact ⟨List.Sublist.refl _, rfl⟩

theorem sortStep_perm (f : Frame) : (sortStep f).rows.Perm f.rows :=
  List.perm_insertionSort peLE f.rows

theorem filterStocks_ok_shape {D : Frame}
    {fetch : List String → Except String (List RoeRec)} {C : Criteria} {F : Frame}
    (h : filterStocks (some D) fetch C = .ok F) :
    F = emptyFrame ∨
      ∃ f2, roeStep C (enrichedOf D fetch C) = .ok f2 ∧ F = sortStep (divStep C f2) := by
  have h2 : (if D.rows.isEmpty = true then Except.ok emptyFrame
      else
        match roeStep C (enrichedOf D fetch C) with
        | Except.error e => Except.error e
        | Except.ok f2 => Except.ok (sortStep (divStep C f2))) = Except.ok F := h
  by_cases he : D.rows.isEmpty = true
  · rw [if_pos he] at h2
    injection h2 with h3
    exact Or.inl h3.symm
  · rw [if_neg he] at h2
    cases hstep : roeStep C (enrichedOf D fetch C) with
    | error e =>
      rw [hstep] at h2
      exact Except.noConfusion h2
    | ok f2 =>
      rw [hstep] at h2
      have h4 : Except.ok (sortStep (divStep C f2)) = Except.ok F := h2
      injection h4 with h3
      exact Or.inr ⟨f2, rfl, h3.symm⟩

theorem mem_filterStocks_enriched {D : Frame}
    {fetch : List String → Except String (List RoeRec)} {C : Criteria} {F : Frame}
    (h : filterStocks (some D) fetch C = .ok F) {r : Row} (hr : r ∈ F.rows) :
    r ∈ (enrichedOf D fetch C).rows := by
  rcases filterStocks_ok_shape h with hF | ⟨f2, hstep, hF⟩
  · rw [hF] at hr
    cases hr
  · rw [hF] at hr
    have h1 : r ∈ (divStep C f2).rows := (sortStep_perm _).mem_iff.mp hr
    have h2 : r ∈ f2.rows := (divStep_sub C f2).1.subset h1
    exact (roeStep_ok_sub hstep).1.subset h2

theorem mem_enriched_strip {D : Frame}
    {fetch : List String → Except String (List RoeRec)} {C : Criteria}
    (Hf : ∀ b recs, fetch b = .ok recs → ∀ q ∈ recs, q.ts_code ∈ b)
    (hnd : (D.rows.map Row.ts_code).Nodup) {r : Row}
    (hr : r ∈ (enrichedOf D fetch C).rows) :
    ∃ r0 ∈ baseRows C D.rows, stripRoe r = stripRoe r0 := by
  unfold enrichedOf at hr
  by_cases hth : 0 < C.roe_min ∨ 0 < C.dividend_min
  · rw [if_pos hth] at hr
    have hbnd : ((baseRows C D.rows).map Row.ts_code).Nodup :=
      hnd.sublist ((baseRows_sublist C D.rows).map Row.ts_code)
    have hstrip := @enrichStage_strip fetch
      { rows := baseRows C D.rows, hasRoe := D.hasRoe } Hf hbnd
    have hmem : stripRoe r ∈
        (enrichStage fetch { rows := baseRows C D.rows, hasRoe := D.hasRoe }).rows.map
          stripRoe := List.mem_map_of_mem _ hr
    rw [hstrip] at hmem
    rcases List.mem_map.mp hmem with ⟨r0, hr0, heq⟩
    exact ⟨r0, hr0, heq.symm⟩
  · rw [if_neg hth] at hr
    exact ⟨r, hr, rfl⟩

/-- C9: for a `None` input or an empty dataset, `filter_stocks` returns an
empty result without raising, for every criteria configuration (and any
fetch collaborator). -/
theorem scr_C9_empty_input (fetch : List String → Except String (List RoeRec))
    (C : Criteria) (b : Bool) :
    filterStocks none fetch C = .ok emptyFrame ∧
    filterStocks (some { rows := [], hasRoe := b }) fetch C = .ok emptyFrame :=
  ⟨rfl, rfl⟩

/-- C3 (counterexample): a row whose listing date is missing is not kept
by the recently-listed exclusion — `listDateKeep` is `False` on a null
date (pandas object-dtype comparison), so the row is silently dropped by
`filter_stocks`, contradicting the claim that it is treated as old and
kept. -/
theorem scr_C3_counterexample :
    listDateKeep critD.one_year_ago wNoDate = false ∧
    stepNew critD [wNoDate] = [] ∧
    filterStocks (some { rows := [wNoDate], hasRoe := false }) noFetch critD =
      .ok { rows := [], hasRoe := false } :=
  ⟨rfl, rfl, rfl⟩

/-- C3 (amended): when the recently-listed exclusion is active, a row is
kept by that stage exactly when it has a listing date and that date is
strictly before the cutoff string `one_year_ago` (the run's date minus
365 days); in particular a row whose listing date is missing is excluded,
not kept. -/
theorem scr_C3_recency {C : Criteria} (hC : C.no_new = true) (l : List Row) (r : Row) :
    r ∈ stepNew C l ↔
      r ∈ l ∧ ∃ d, r.list_date = some d ∧ strLt d C.one_year_ago = true := by
  unfold stepNew
  rw [if_pos hC, List.mem_filter]
  constructor
  · rintro ⟨h1, h2⟩
    refine ⟨h1, ?_⟩
    cases hld : r.list_date with
    | none => simp [listDateKeep, hld] at h2
    | some d =>
      simp only [listDateKeep, hld] at h2
      exact ⟨d, rfl, h2⟩
  · rintro ⟨h1, d, hd, hlt⟩
    exact ⟨h1, by simp [listDateKeep, hd, hlt]⟩

/-- Witness for the amended C3 at a concrete input: `wOld` (listed
`20100101`, cutoff `20250101`) is kept by the active recency stage. -/
theorem scr_C3_recency_witness :
    critD.no_new = true ∧
    (wOld ∈ stepNew critD [wOld] ↔
      wOld ∈ [wOld] ∧ ∃ d, wOld.list_date = some d ∧ strLt d critD.one_year_ago = true) :=
  ⟨rfl, scr_C3_recency rfl [wOld] wOld⟩

/-- C8 (counterexample): `df.nlargest(3, 'dv_ratio')` drops the rows whose
dividend yield is null: with two null-yield rows available and only two
non-null rows, the slice has just those two rows — the null rows are not
included-and-ranked-last as claimed. -/
theorem scr_C8_counterexample :
    topDiv [dNull1, dVal1, dNull2, dVal2] = [dVal2, dVal1] ∧
    dNull1 ∉ topDiv [dNull1, dVal1, dNull2, dVal2] ∧
    (topDiv [dNull1, dVal1, dNull2, dVal2]).length = 2 := by
  refine ⟨rfl, ?_, rfl⟩
  decide

/-- C8 (amended): the high-dividend top-3 slice excludes every row whose
dividend yield is null (pandas `nlargest` first drops nulls); surviving
slice members come from the base set. -/
theorem scr_C8_null_dropped (l : List Row) :
    ∀ r ∈ topDiv l, r.dv_ratio ≠ none ∧ r ∈ l := by
  intro r hr
  unfold topDiv nlargestDv at hr
  have h1 : r ∈ (l.filter (fun r => r.dv_ratio.isSome)).insertionSort dvGE :=
    List.mem_of_mem_take hr
  have h2 := (List.mem_insertionSort dvGE).mp h1
  rcases List.mem_filter.mp h2 with ⟨hmem, hsome⟩
  refine ⟨?_, hmem⟩
  intro hnone
  rw [hnone] at hsome
  exact Bool.false_ne_true hsome

/-- Witness for the amended C8 at a concrete input. -/
theorem scr_C8_null_dropped_witness :
    dVal1 ∈ topDiv [dVal1] ∧ (dVal1.dv_ratio ≠ none ∧ dVal1 ∈ [dVal1]) :=
  ⟨by decide, scr_C8_null_dropped [dVal1] dVal1 (by decide)⟩

/-- The all-empty fetch respects the batch contract (it returns records
only for requested identifiers, vacuously). -/
theorem noFetch_wf :
    ∀ b recs, noFetch b = .ok recs → ∀ q ∈ recs, q.ts_code ∈ b := by
  intro b recs h q hq
  injection h with h2
  subst h2
  cases hq

/-- C4: every row surviving `filter_stocks` has a present trailing P/E
strictly between 0 and the ceiling, a present P/B strictly between 0 and
its ceiling, and a present turnover strictly above the configured floor
(no ceiling); in particular rows with non-positive or missing P/E or P/B
are absent (the `P/E>0` rule is unconditional in the code). -/
theorem scr_C4_numeric {D : Frame} {fetch : List String → Except String (List RoeRec)}
    {C : Criteria} {F : Frame}
    (Hf : ∀ b recs, fetch b = .ok recs → ∀ q ∈ recs, q.ts_code ∈ b)
    (hnd : (D.rows.map Row.ts_code).Nodup)
    (h : filterStocks (some D) fetch C = .ok F) :
    ∀ r ∈ F.rows,
      (∃ v, r.pe_ttm = some v ∧ 0 < v ∧ v < C.pe_max) ∧
      (∃ v, r.pb = some v ∧ 0 < v ∧ v < C.pb_max) ∧
      (∃ v, r.turnover_rate = some v ∧ C.turnover_min < v) := by
  intro r hr
  have hE := mem_filterStocks_enriched h hr
  rcases mem_enriched_strip Hf hnd hE with ⟨r0, hr0, hstrip⟩
  have hk := mem_baseRows_keepAll hr0
  simp only [keepAll, Bool.and_eq_true] at hk
  have hnum0 : numericKeep C r0 = true := hk.2
  have hnum : numericKeep C r = true := by
    have e1 : numericKeep C r = numericKeep C (stripRoe r) := rfl
    have e2 : numericKeep C (stripRoe r0) = numericKeep C r0 := rfl
    rw [e1, hstrip, e2, hnum0]
  exact (numericKeep_iff C r).mp hnum

/-- Witness for C4 at a concrete run. -/
theorem scr_C4_witness :
    (filterStocks (some { rows := [wOld], hasRoe := false }) noFetch critD =
      .ok { rows := [wOld], hasRoe := false }) ∧
    ∀ r ∈ ({ rows := [wOld], hasRoe := false } : Frame).rows,
      (∃ v, r.pe_ttm = some v ∧ 0 < v ∧ v < critD.pe_max) ∧
      (∃ v, r.pb = some v ∧ 0 < v ∧ v < critD.pb_max) ∧
      (∃ v, r.turnover_rate = some v ∧ critD.turnover_min < v) :=
  ⟨rfl, scr_C4_numeric noFetch_wf (by decide)
    (show filterStocks (some { rows := [wOld], hasRoe := false }) noFetch critD =
      .ok { rows := [wOld], hasRoe := false } from rfl)⟩

/-- C10: with a strictly positive ROE minimum, `fillna(0)` makes every
row whose ROE is unresolved (null) fail the threshold, so every surviving
row carries a resolved ROE strictly above the minimum; the same holds for
the dividend-yield threshold. -/
theorem scr_C10_null_as_zero {D : Frame}
    {fetch : List String → Except String (List RoeRec)} {C : Criteria} {F : Frame}
    (h : filterStocks (some D) fetch C = .ok F) :
    (0 < C.roe_min → ∀ r ∈ F.rows, ∃ v, r.roe = some v ∧ C.roe_min < v) ∧
    (0 < C.dividend_min → ∀ r ∈ F.rows, ∃ v, r.dv_ratio = some v ∧ C.dividend_min < v) := by
  rcases filterStocks_ok_shape h with hF | ⟨f2, hstep, hF⟩
  · constructor <;> intro _ r hr <;> rw [hF] at hr <;> cases hr
  · constructor
    · intro hroe r hr
      rw [hF] at hr
      have h1 : r ∈ (divStep C f2).rows := (sortStep_perm _).mem_iff.mp hr
      have h2 : r ∈ f2.rows := (divStep_sub C f2).1.subset h1
      unfold roeStep at hstep
      rw [if_pos hroe] at hstep
      by_cases hhr : (enrichedOf D fetch C).hasRoe = true
      · rw [if_pos hhr] at hstep
        injection hstep with h3
        have h4 : r ∈ (enrichedOf D fetch C).rows.filter
            (fun r => decide (C.roe_min < r.roe.getD 0)) := by
          rw [← h3] at h2
          exact h2
        have h5 := List.of_mem_filter h4
        rw [decide_eq_true_eq] at h5
        cases hv : r.roe with
        | none =>
          rw [hv] at h5
          exact absurd (lt_trans hroe h5) (by simp)
        | some v =>
          rw [hv] at h5
          exact ⟨v, rfl, h5⟩
      · rw [if_neg hhr] at hstep
        exact Except.noConfusion hstep
    · intro hdiv r hr
      rw [hF] at hr
      have h1 : r ∈ (divStep C f2).rows := (sortStep_perm _).mem_iff.mp hr
      unfold divStep at h1
      rw [if_pos hdiv] at h1
      have h5 := List.of_mem_filter h1
      rw [decide_eq_true_eq] at h5
      cases hv : r.dv_ratio with
      | none =>
        rw [hv] at h5
        exact absurd (lt_trans hdiv h5) (by simp)
      | some v =>
        rw [hv] at h5
        exact ⟨v, rfl, h5⟩

/-- Witness for C10 at a concrete run with the ROE threshold active. -/
theorem scr_C10_witness :
    (filterStocks (some { rows := [wOld], hasRoe := false }) fetchOld critRoe =
      .ok { rows := [{ wOld with roe := some 10 }], hasRoe := true }) ∧
    ((0 < critRoe.roe_min →
      ∀ r ∈ ({ rows := [{ wOld with roe := some 10 }], hasRoe := true } : Frame).rows,
        ∃ v, r.roe = some v ∧ critRoe.roe_min < v) ∧
     (0 < critRoe.dividend_min →
      ∀ r ∈ ({ rows := [{ wOld with roe := some 10 }], hasRoe := true } : Frame).rows,
        ∃ v, r.dv_ratio = some v ∧ critRoe.dividend_min < v)) :=
  ⟨rfl, scr_C10_null_as_zero
    (show filterStocks (some { rows := [wOld], hasRoe := false }) fetchOld critRoe =
      .ok { rows := [{ wOld with roe := some 10 }], hasRoe := true } from rfl)⟩

theorem enrichedOf_codes_nodup {D : Frame}
    {fetch : List String → Except String (List RoeRec)} {C : Criteria}
    (Hf : ∀ b recs, fetch b = .ok recs → ∀ q ∈ recs, q.ts_code ∈ b)
    (hnd : (D.rows.map Row.ts_code).Nodup) :
    ((enrichedOf D fetch C).rows.map Row.ts_code).Nodup := by
  have hbnd : ((baseRows C D.rows).map Row.ts_code).Nodup :=
    hnd.sublist ((baseRows_sublist C D.rows).map Row.ts_code)
  unfold enrichedOf
  by_cases hth : 0 < C.roe_min ∨ 0 < C.dividend_min
  · rw [if_pos hth]
    rw [@enrichStage_codes fetch { rows := baseRows C D.rows, hasRoe := D.hasRoe } Hf hbnd]
    exact hbnd
  · rw [if_neg hth]
    exact hbnd

/-- C6: on a dataset with unique identifiers (and a fetch collaborator
that answers only for the identifiers it was asked), the filtered result
is a subset of the dataset: its identifiers all come from the dataset,
none is duplicated, and every surviving row agrees with a dataset row on
every snapshot field (only the `roe` enrichment column may differ). -/
theorem scr_C6_subset {D : Frame} {fetch : List String → Except String (List RoeRec)}
    {C : Criteria} {F : Frame}
    (hnd : (D.rows.map Row.ts_code).Nodup)
    (Hf : ∀ b recs, fetch b = .ok recs → ∀ q ∈ recs, q.ts_code ∈ b)
    (h : filterStocks (some D) fetch C = .ok F) :
    (∀ c ∈ F.rows.map Row.ts_code, c ∈ D.rows.map Row.ts_code) ∧
    (F.rows.map Row.ts_code).Nodup ∧
    (∀ r ∈ F.rows, ∃ r0 ∈ D.rows, stripRoe r = stripRoe r0) := by
  have hmemD : ∀ r ∈ F.rows, ∃ r0 ∈ D.rows, stripRoe r = stripRoe r0 := by
    intro r hr
    rcases mem_enriched_strip Hf hnd (mem_filterStocks_enriched h hr) with ⟨r0, hr0, hs⟩
    exact ⟨r0, mem_baseRows_self hr0, hs⟩
  refine ⟨?_, ?_, hmemD⟩
  · intro c hc
    rcases List.mem_map.mp hc with ⟨r, hr, rfl⟩
    rcases hmemD r hr with ⟨r0, hr0, hs⟩
    have hcode : (stripRoe r).ts_code = (stripRoe r0).ts_code := congrArg Row.ts_code hs
    rw [show r.ts_code = r0.ts_code from hcode]
    exact List.mem_map_of_mem _ hr0
  · rcases filterStocks_ok_shape h with hF | ⟨f2, hstep, hF⟩
    · rw [hF]
      simp [emptyFrame]
    · rw [hF]
      have hperm : ((sortStep (divStep C f2)).rows.map Row.ts_code).Perm
          ((divStep C f2).rows.map Row.ts_code) := (sortStep_perm _).map _
      rw [hperm.nodup_iff]
      have hsub1 : List.Sublist ((divStep C f2).rows.map Row.ts_code)
          (f2.rows.map Row.ts_code) := (divStep_sub C f2).1.map _
      have hsub2 : List.Sublist (f2.rows.map Row.ts_code)
          ((enrichedOf D fetch C).rows.map Row.ts_code) := (roeStep_ok_sub hstep).1.map _
      exact (enrichedOf_codes_nodup Hf hnd).sublist (hsub1.trans hsub2)

/-- Witness for C6 at a concrete run. -/
theorem scr_C6_witness :
    (filterStocks (some { rows := [wOld], hasRoe := false }) noFetch critD =
      .ok { rows := [wOld], hasRoe := false }) ∧
    ((∀ c ∈ ({ rows := [wOld], hasRoe := false } : Frame).rows.map Row.ts_code,
        c ∈ ({ rows := [wOld], hasRoe := false } : Frame).rows.map Row.ts_code) ∧
     (({ rows := [wOld], hasRoe := false } : Frame).rows.map Row.ts_code).Nodup ∧
     (∀ r ∈ ({ rows := [wOld], hasRoe := false } : Frame).rows,
        ∃ r0 ∈ ({ rows := [wOld], hasRoe := false } : Frame).rows,
          stripRoe r = stripRoe r0)) :=
  ⟨rfl, scr_C6_subset (by decide) noFetch_wf
    (show filterStocks (some { rows := [wOld], hasRoe := false }) noFetch critD =
      .ok { rows := [wOld], hasRoe := false } from rfl)⟩

theorem runBatches_flatten_mem_dedup {fetch : List String → Except String (List RoeRec)}
    {bs : List (List String)} {parts : List (List RoeRec)}
    (h : runBatches fetch bs = .ok parts) {q : RoeRec} (hq : q ∈ parts.flatten) :
    ∃ b ∈ bs, ∃ recs, fetch b = .ok recs ∧ q ∈ dedupLatest recs := by
  induction bs generalizing parts with
  | nil =>
    simp only [runBatches, Except.ok.injEq] at h
    subst h
    simp at hq
  | cons b bs2 ih =>
    cases hf : fetch b with
    | error e =>
      simp only [runBatches, hf] at h
      exact Except.noConfusion h
    | ok recs =>
      cases hr : runBatches fetch bs2 with
      | error e =>
        simp only [runBatches, hf, hr] at h
        exact Except.noConfusion h
      | ok rest =>
        simp only [runBatches, hf, hr, Except.ok.injEq] at h
        by_cases he : recs.isEmpty
        · rw [if_pos he] at h
          subst h
          rcases ih hr hq with ⟨b2, hb2, recs2, hf2, hq2⟩
          exact ⟨b2, List.mem_cons_of_mem _ hb2, recs2, hf2, hq2⟩
        · rw [if_neg he] at h
          subst h
          rw [List.flatten_cons, List.mem_append] at hq
          rcases hq with hq | hq
          · exact ⟨b, List.mem_cons_self _ _, recs, hf, hq⟩
          · rcases ih hr hq with ⟨b2, hb2, recs2, hf2, hq2⟩
            exact ⟨b2, List.mem_cons_of_mem _ hb2, recs2, hf2, hq2⟩

theorem runBatches_cover {fetch : List String → Except String (List RoeRec)}
    {bs : List (List String)} {parts : List (List RoeRec)}
    (h : runBatches fetch bs = .ok parts) {b : List String} (hb : b ∈ bs)
    {recs : List RoeRec} (hf : fetch b = .ok recs) {p : RoeRec} (hp : p ∈ recs) :
    ∃ q ∈ parts.flatten, q.ts_code = p.ts_code := by
  induction bs generalizing parts with
  | nil => cases hb
  | cons hd tl ih =>
    cases hfd : fetch hd with
    | error e =>
      simp only [runBatches, hfd] at h
      exact Except.noConfusion h
    | ok recs0 =>
      cases hr : runBatches fetch tl with
      | error e =>
        simp only [runBatches, hfd, hr] at h
        exact Except.noConfusion h
      | ok rest =>
        simp only [runBatches, hfd, hr, Except.ok.injEq] at h
        rcases List.mem_cons.mp hb with rfl | hbt
        · rw [hf] at hfd
          injection hfd with h2
          subst h2
          have hne : recs.isEmpty = false := by
            cases recs with
            | nil => cases hp
            | cons a l => rfl
          rw [hne] at h
          rw [if_neg (by simp)] at h
          subst h
          rcases cover_dedupLatest hp with ⟨q, hq, hcode⟩
          exact ⟨q, by rw [List.flatten_cons, List.mem_append]; exact Or.inl hq, hcode⟩
        · rcases ih hr hbt with ⟨q, hq, hcode⟩
          refine ⟨q, ?_, hcode⟩
          by_cases he : recs0.isEmpty
          · rw [if_pos he] at h
            subst h
            exact hq
          · rw [if_neg he] at h
            subst h
            rw [List.flatten_cons, List.mem_append]
            exact Or.inr hq

/-- C5: over a batched enrichment on unique identifiers (with the fetch
answering only for requested identifiers), the concatenated deduplicated
result has at most one record per identifier; each kept record is one of
the fetched records for its identifier and its period end-date is maximal
among every fetched record of that identifier (across all batches); and
every fetched identifier is represented. -/
theorem scr_C5_latest {codes : List String}
    {fetch : List String → Except String (List RoeRec)} {parts : List (List RoeRec)}
    (hnd : codes.Nodup)
    (Hf : ∀ b recs, fetch b = .ok recs → ∀ q ∈ recs, q.ts_code ∈ b)
    (h : runBatches fetch (chunks100 codes) = .ok parts) :
    ((parts.flatten).map RoeRec.ts_code).Nodup ∧
    (∀ q ∈ parts.flatten,
      (∃ b ∈ chunks100 codes, ∃ recs, fetch b = .ok recs ∧ q ∈ recs) ∧
      (∀ b2 ∈ chunks100 codes, ∀ recs2, fetch b2 = .ok recs2 →
        ∀ p ∈ recs2, p.ts_code = q.ts_code → strLt q.end_date p.end_date = false)) ∧
    (∀ b ∈ chunks100 codes, ∀ recs, fetch b = .ok recs →
      ∀ p ∈ recs, ∃ q ∈ parts.flatten, q.ts_code = p.ts_code) := by
  have hdis : (chunks100 codes).Pairwise List.Disjoint := (chunks100_nodup hnd).2
  refine ⟨runBatches_codes_nodup h Hf hdis, ?_, ?_⟩
  · intro q hq
    rcases runBatches_flatten_mem_dedup h hq with ⟨b, hb, recs, hf, hqd⟩
    have hqrecs : q ∈ recs := mem_dedupLatest hqd
    refine ⟨⟨b, hb, recs, hf, hqrecs⟩, ?_⟩
    intro b2 hb2 recs2 hf2 p hp hcode
    have hqb : q.ts_code ∈ b := Hf b recs hf q hqrecs
    have hqb2 : q.ts_code ∈ b2 := by
      rw [← hcode]
      exact Hf b2 recs2 hf2 p hp
    have hbeq : b = b2 := pairwise_disjoint_eq hdis hb hb2 hqb hqb2
    subst hbeq
    rw [hf] at hf2
    injection hf2 with h2
    subst h2
    exact latest_dedupLatest hqd hp hcode
  · intro b hb recs hf p hp
    exact runBatches_cover h hb hf hp

theorem fetchTwo_wf :
    ∀ b recs, fetchTwo b = .ok recs → ∀ q ∈ recs, q.ts_code ∈ b := by
  intro b recs h q hq
  unfold fetchTwo at h
  by_cases hb : b = ["X"]
  · rw [if_pos hb] at h
    injection h with h2
    subst h2
    subst hb
    rcases List.mem_cons.mp hq with rfl | hq2
    · decide
    · rcases List.mem_cons.mp hq2 with rfl | hq3
      · decide
      · cases hq3
  · rw [if_neg hb] at h
    injection h with h2
    subst h2
    cases hq

/-- Witness for C5: of the two records for `X` (periods `20231231` and
`20240630`), the enrichment keeps exactly the `20240630` one. -/
theorem scr_C5_witness :
    (((([[{ ts_code := "X", roe := some 9, end_date := "20240630" }]] :
        List (List RoeRec))).flatten).map RoeRec.ts_code).Nodup ∧
    (∀ q ∈ ([[{ ts_code := "X", roe := some 9, end_date := "20240630" }]] :
        List (List RoeRec)).flatten,
      (∃ b ∈ chunks100 ["X"], ∃ recs, fetchTwo b = .ok recs ∧ q ∈ recs) ∧
      (∀ b2 ∈ chunks100 ["X"], ∀ recs2, fetchTwo b2 = .ok recs2 →
        ∀ p ∈ recs2, p.ts_code = q.ts_code → strLt q.end_date p.end_date = false)) ∧
    (∀ b ∈ chunks100 ["X"], ∀ recs, fetchTwo b = .ok recs →
      ∀ p ∈ recs, ∃ q ∈ ([[{ ts_code := "X", roe := some 9, end_date := "20240630" }]] :
        List (List RoeRec)).flatten, q.ts_code = p.ts_code) :=
  scr_C5_latest (by decide) fetchTwo_wf
    (show runBatches fetchTwo (chunks100 ["X"]) =
      .ok [[{ ts_code := "X", roe := some 9, end_date := "20240630" }]] from rfl)

/-- C1 (amended): when a batch fetch raises during the ROE enrichment, no
exception propagates out of `filter_stocks` (the whole `try` block is
caught), and the `except` arm `result['roe'] = None` nulls the ROE of
EVERY identifier — the failed batch's identifiers get null ROE as the
claim says, but the identifiers of batches fetched successfully before
the failure lose their resolved values too. -/
theorem scr_C1_batch_failure {D : Frame}
    {fetch : List String → Except String (List RoeRec)} {C : Criteria} {e : String}
    (hth : 0 < C.roe_min ∨ 0 < C.dividend_min)
    (hfail : runBatches fetch
      (chunks100 ((baseRows C D.rows).map (fun r => r.ts_code))) = .error e) :
    (∃ F, filterStocks (some D) fetch C = .ok F) ∧
    (enrichStage fetch { rows := baseRows C D.rows, hasRoe := D.hasRoe }).rows =
      (baseRows C D.rows).map (fun r => { r with roe := none }) := by
  have hE : enrichStage fetch { rows := baseRows C D.rows, hasRoe := D.hasRoe } =
      { rows := (baseRows C D.rows).map (fun r => { r with roe := none }),
        hasRoe := true } := by
    unfold enrichStage
    dsimp only
    rw [hfail]
  refine ⟨?_, by rw [hE]⟩
  have hEOf : enrichedOf D fetch C =
      { rows := (baseRows C D.rows).map (fun r => { r with roe := none }),
        hasRoe := true } := by
    unfold enrichedOf
    rw [if_pos hth, hE]
  by_cases he : D.rows.isEmpty = true
  · refine ⟨emptyFrame, ?_⟩
    show (if D.rows.isEmpty = true then Except.ok emptyFrame
      else match roeStep C (enrichedOf D fetch C) with
        | Except.error e2 => Except.error e2
        | Except.ok f2 => Except.ok (sortStep (divStep C f2))) = Except.ok emptyFrame
    rw [if_pos he]
  · have hstep : ∃ f2, roeStep C (enrichedOf D fetch C) = .ok f2 := by
      rw [hEOf]
      unfold roeStep
      by_cases hroe : 0 < C.roe_min
      · rw [if_pos hroe, if_pos rfl]
        exact ⟨_, rfl⟩
      · rw [if_neg hroe]
        exact ⟨_, rfl⟩
    rcases hstep with ⟨f2, hf2⟩
    refine ⟨sortStep (divStep C f2), ?_⟩
    show (if D.rows.isEmpty = true then Except.ok emptyFrame
      else match roeStep C (enrichedOf D fetch C) with
        | Except.error e2 => Except.error e2
        | Except.ok f22 => Except.ok (sortStep (divStep C f22))) =
      Except.ok (sortStep (divStep C f2))
    rw [if_neg he, hf2]

/-- Witness for the amended C1 at a concrete run. -/
theorem scr_C1_witness :
    ((0 : ℚ) < critRoe.roe_min ∨ (0 : ℚ) < critRoe.dividend_min) ∧
    ((∃ F, filterStocks (some { rows := [wOld], hasRoe := false }) failFetch critRoe =
        .ok F) ∧
     (enrichStage failFetch { rows := baseRows critRoe [wOld], hasRoe := false }).rows =
       (baseRows critRoe [wOld]).map (fun r => { r with roe := none })) :=
  ⟨Or.inl (by decide),
    scr_C1_batch_failure (Or.inl (by decide))
      (show runBatches failFetch
        (chunks100 ((baseRows critRoe [wOld]).map (fun r => r.ts_code))) =
        .error "timeout" from rfl)⟩

/-- C1 (counterexample): with 101 identifiers, the first batch of 100
fetches successfully (identifier `S0` resolves to ROE 50) and the second
batch raises; yet after the enrichment stage EVERY identifier — including
all of the successfully fetched first batch — has null ROE, contradicting
the claim that earlier batches keep their resolved values. No exception
escapes `filter_stocks` (it returns a result). -/
theorem scr_C1_counterexample :
    chunks100 codes101 = [codes101.take 100, codes101.drop 100] ∧
    fetchSplit (codes101.take 100) =
      .ok ((codes101.take 100).map
        (fun c => { ts_code := c, roe := some 50, end_date := "20240630" })) ∧
    fetchSplit (codes101.drop 100) = .error "timeout" ∧
    (enrichStage fetchSplit { rows := rows101, hasRoe := false }).rows.map
        (fun r => r.roe) = List.replicate 101 none ∧
    filterStocks (some { rows := rows101, hasRoe := false }) fetchSplit critRoe =
      .ok { rows := [], hasRoe := true } :=
  ⟨rfl, rfl, rfl, rfl, rfl⟩

/-- C7 (counterexample): with the ROE threshold active, applying
`filter_stocks` to its own output raises a `KeyError` — the second merge
renames the existing `roe` column to `roe_x`/`roe_y`, so
`result['roe']` no longer exists — hence
`filter(filter(D,C),C) ≠ filter(D,C)`. -/
theorem scr_C7_counterexample :
    filterStocks (some { rows := [wOld], hasRoe := false }) fetchOld critRoe =
      .ok { rows := [{ wOld with roe := some 10 }], hasRoe := true } ∧
    filterStocks (some { rows := [{ wOld with roe := some 10 }], hasRoe := true })
      fetchOld critRoe = .error "KeyError: roe" :=
  ⟨rfl, rfl⟩

theorem filterStocks_no_enrich (G : Frame)
    (fetch : List String → Except String (List RoeRec)) (C : Criteria)
    (hnr : ¬ 0 < C.roe_min) (hndiv : ¬ 0 < C.dividend_min) :
    filterStocks (some G) fetch C =
      if G.rows.isEmpty = true then .ok emptyFrame
      else .ok (sortStep { rows := baseRows C G.rows, hasRoe := G.hasRoe }) := by
  have hth : ¬ (0 < C.roe_min ∨ 0 < C.dividend_min) := by
    rintro (hc | hc)
    exacts [hnr hc, hndiv hc]
  by_cases he : G.rows.isEmpty = true
  · rw [if_pos he]
    show (if G.rows.isEmpty = true then Except.ok emptyFrame
      else match roeStep C (enrichedOf G fetch C) with
        | Except.error e => Except.error e
        | Except.ok f2 => Except.ok (sortStep (divStep C f2))) = Except.ok emptyFrame
    rw [if_pos he]
  · rw [if_neg he]
    show (if G.rows.isEmpty = true then Except.ok emptyFrame
      else match roeStep C (enrichedOf G fetch C) with
        | Except.error e => Except.error e
        | Except.ok f2 => Except.ok (sortStep (divStep C f2))) =
      Except.ok (sortStep { rows := baseRows C G.rows, hasRoe := G.hasRoe })
    rw [if_neg he]
    have hEOf : enrichedOf G fetch C =
        { rows := baseRows C G.rows, hasRoe := G.hasRoe } := by
      unfold enrichedOf
      rw [if_neg hth]
    have hroe : roeStep C { rows := baseRows C G.rows, hasRoe := G.hasRoe } =
        .ok { rows := baseRows C G.rows, hasRoe := G.hasRoe } := by
      unfold roeStep
      rw [if_neg hnr]
    rw [hEOf, hroe]
    have hdiv : divStep C { rows := baseRows C G.rows, hasRoe := G.hasRoe } =
        { rows := baseRows C G.rows, hasRoe := G.hasRoe } := by
      unfold divStep
      rw [if_neg hndiv]
    exact congrArg Except.ok (congrArg sortStep hdiv)

/-- C7 (amended): with the thresholds inactive (both 0-defaults) and a
dataset without a `roe` column, re-applying `filter_stocks` to its own
output succeeds and returns the same surviving rows with the same column
shape, up to row order: the second run keeps every row and re-sorts them,
so its rows are a permutation of the first result's rows. Row-for-row
equality is NOT claimed: the program's `sort_values('pe_ttm')` uses
pandas' unstable default quicksort (see the stability bug recorded at the
ranking claim), so the second sort may reorder an equal-P/E tie block.
This permutation-level conclusion is insensitive to which sort the
implementation uses. -/
theorem scr_C7_idem {D : Frame} {fetch : List String → Except String (List RoeRec)}
    {C : Criteria} {F : Frame}
    (hR : D.hasRoe = false) (h1 : C.roe_min ≤ 0) (h2 : C.dividend_min ≤ 0)
    (h : filterStocks (some D) fetch C = .ok F) :
    ∃ F2, filterStocks (some F) fetch C = .ok F2 ∧
      F2.rows.Perm F.rows ∧ F2.hasRoe = F.hasRoe := by
  have hnr : ¬ 0 < C.roe_min := not_lt.mpr h1
  have hndiv : ¬ 0 < C.dividend_min := not_lt.mpr h2
  rw [filterStocks_no_enrich D fetch C hnr hndiv] at h
  by_cases he : D.rows.isEmpty = true
  · rw [if_pos he] at h
    injection h with h4
    rw [← h4]
    exact ⟨emptyFrame, rfl, List.Perm.refl _, rfl⟩
  · rw [if_neg he] at h
    injection h with h5
    have hFrows : ∀ r ∈ F.rows, keepAll C r = true := by
      intro r hr
      rw [← h5] at hr
      exact mem_baseRows_keepAll ((List.mem_insertionSort peLE).mp hr)
    have hFhr : F.hasRoe = false := by
      rw [← h5]
      exact hR
    rw [filterStocks_no_enrich F fetch C hnr hndiv]
    by_cases hs : F.rows.isEmpty = true
    · rw [if_pos hs]
      refine ⟨emptyFrame, rfl, ?_, hFhr.symm⟩
      rw [List.isEmpty_iff.mp hs]
      exact List.Perm.refl _
    · rw [if_neg hs]
      refine ⟨sortStep { rows := baseRows C F.rows, hasRoe := F.hasRoe }, rfl, ?_, rfl⟩
      rw [baseRows_eq_self hFrows]
      exact List.perm_insertionSort peLE F.rows

/-- Witness for the amended C7 at a concrete run without enrichment. -/
theorem scr_C7_witness :
    (({ rows := [wOld], hasRoe := false } : Frame).hasRoe = false) ∧
    critD.roe_min ≤ 0 ∧ critD.dividend_min ≤ 0 ∧
    filterStocks (some { rows := [wOld], hasRoe := false }) noFetch critD =
      .ok { rows := [wOld], hasRoe := false } ∧
    (∃ F2, filterStocks (some { rows := [wOld], hasRoe := false }) noFetch critD =
        .ok F2 ∧
      F2.rows.Perm ({ rows := [wOld], hasRoe := false } : Frame).rows ∧
      F2.hasRoe = ({ rows := [wOld], hasRoe := false } : Frame).hasRoe) :=
  ⟨rfl, by decide, by decide, rfl,
    scr_C7_idem rfl (by decide) (by decide)
      (show filterStocks (some { rows := [wOld], hasRoe := false }) noFetch critD =
        .ok { rows := [wOld], hasRoe := false } from rfl)⟩

end ValueScreen

